import Mathlib

/-!
Shallow embedding of the yacht-OSINT feed pipeline (discovery, resilient HTTP,
entry fetching, record extraction) together with proofs about its behaviour.

Python strings are modelled as Lean `String`s, but every string operation used
by the code is re-implemented on the character list (`String.data`) so that all
definitions reduce inside the kernel.  Python dicts with a fixed key set are
modelled as structures whose fields are `Option (Option String)`
(`none` = key absent, `some none` = key present with value `None`).
Network and library effects (requests, feedparser, feedfinder2, BeautifulSoup)
are modelled as explicit oracle functions passed to the embedded code, and a
Python exception is an `Except.error`.
-/

namespace YachtSpec

/-! ## Python string primitives (character-list based) -/

/-- Python `s.lower()` (ASCII case folding). -/
def pyLower (s : String) : String := ⟨s.data.map Char.toLower⟩

/-- Python `s.startswith(p)`. -/
def pyStarts (s p : String) : Bool := p.data.isPrefixOf s.data

/-- Python substring membership `p in s`, on character lists. -/
def subMem (p s : List Char) : Bool := s.tails.any (fun t => p.isPrefixOf t)

/-- Python `p in s` on strings. -/
def pyIn (p s : String) : Bool := subMem p.data s.data

/-- Python `s.strip()` (whitespace from both ends). -/
def pyStrip (s : String) : String :=
  ⟨((s.data.dropWhile Char.isWhitespace).reverse.dropWhile Char.isWhitespace).reverse⟩

/-- Numeric value of a decimal digit string. -/
def natOfDigits (l : List Char) : Nat := l.foldl (fun a c => 10 * a + (c.toNat - '0'.toNat)) 0

namespace ExtractP

/-! ## `src/extract/parse.py` — the record extractor -/

/-- ASCII reading of the regex class `\d`. -/
def isDig (c : Char) : Bool := c.isDigit

/-- ASCII reading of the regex class `\s`. -/
def isSpc (c : Char) : Bool :=
  c = ' ' || c = '\t' || c = '\n' || c = '\x0d' || c = '\x0b' || c = '\x0c'

/-- Value of the matched group `<digits>[.<digits>]`:
integer digits `ds`, fractional digits `fs` (empty when there is no dot). -/
def decVal (ds fs : List Char) : ℚ :=
  (natOfDigits ds : ℚ) + (natOfDigits fs : ℚ) / (10 : ℚ) ^ fs.length

/-- Tail stage of the `_LENGTH_RE` matcher: after the numeric token
(`ds` integer digits, `fs` fractional digits) consume `\s*` from `rest2` and
require the letter `m`/`M`. -/
def afterNum (ds fs rest2 : List Char) : Option ℚ :=
  match rest2.dropWhile isSpc with
  | c :: _ => if c = 'm' || c = 'M' then some (decVal ds fs) else none
  | [] => none

/-- Matcher for the regex `(\d+(?:\.\d+)?)\s*m` of `_LENGTH_RE` (with `re.I`),
anchored at the head of `cs`; returns the value of group 1.  For this pattern
the greedy reading needs no backtracking, so the matcher is deterministic:
maximal digit run, optional `.`+digits run, maximal whitespace run, then
`m`/`M`. -/
def matchAt (cs : List Char) : Option ℚ :=
  let ds := cs.takeWhile isDig
  if ds.isEmpty then none
  else
    match cs.dropWhile isDig with
    | '.' :: r2 =>
      let fs := r2.takeWhile isDig
      if fs.isEmpty then afterNum ds [] ('.' :: r2)
      else afterNum ds fs (r2.dropWhile isDig)
    | rest => afterNum ds [] rest

/-- `re.search` for `_LENGTH_RE`: leftmost position at which the pattern
matches. -/
def searchLen : List Char → Option ℚ
  | [] => none
  | c :: cs =>
    match matchAt (c :: cs) with
    | some v => some v
    | none => searchLen cs

/-- `_parse_length` from `src/extract/parse.py`: strip the commas
(`text.replace(",", "")`), then search for `_LENGTH_RE`. -/
def parse_length (text : String) : Option ℚ :=
  searchLen (text.data.filter (fun c => !(c = ',')))

/-- A feed-entry dict restricted to the keys `parse_entry` reads or copies.
`none` = key absent, `some none` = key present with value `None`. -/
structure PyEntry where
  title : Option (Option String) := none
  summary : Option (Option String) := none
  link : Option (Option String) := none
  published : Option (Option String) := none
deriving DecidableEq

/-- Python `entry.get(k) or ""`. -/
def getOrEmpty : Option (Option String) → String
  | some (some s) => s
  | _ => ""

/-- The output record of `parse_entry`: `name` and `length_m` always present,
`link`/`published`/`summary` copied verbatim when the key is present. -/
structure Record where
  name : String
  length_m : Option ℚ
  link : Option (Option String)
  published : Option (Option String)
  summary : Option (Option String)
deriving DecidableEq

/-- `parse_entry` from `src/extract/parse.py`. -/
def parse_entry (e : PyEntry) : Record :=
  let title := pyStrip (getOrEmpty e.title)
  let summary := getOrEmpty e.summary
  let length := parse_length (title ++ " " ++ summary)
  { name := title, length_m := length,
    link := e.link, published := e.published, summary := e.summary }

/-- `run` from `src/extract/parse.py`: flatten the per-domain entry lists into
one record list, preserving order. -/
def runExtract (entries : List (String × List PyEntry)) : List Record :=
  entries.flatMap (fun p => p.2.map parse_entry)

/-- The text `parse_entry` actually searches for a length: stripped title,
a joining space, the summary, with all commas removed. -/
def entryText (e : PyEntry) : List Char :=
  ((pyStrip (getOrEmpty e.title) ++ " " ++ getOrEmpty e.summary).data.filter
    (fun c => !(c = ',')))

/-- Declarative reading of the claim's pattern at the head of `cs`: a nonempty
digit run `ds`, an optional fractional part `.fs`, optional whitespace `ws`,
then the letter `m` (either case), with `v` the value of the numeric token. -/
def MatchSpecAt (cs : List Char) (v : ℚ) : Prop :=
  ∃ ds fs ws rest,
    ds ≠ [] ∧ (∀ c ∈ ds, isDig c = true) ∧
    (fs = [] ∨ (fs ≠ [] ∧ ∀ c ∈ fs, isDig c = true)) ∧
    (∀ c ∈ ws, isSpc c = true) ∧
    (∃ r2, rest = 'm' :: r2 ∨ rest = 'M' :: r2) ∧
    cs = ds ++ (if fs = [] then [] else '.' :: fs) ++ ws ++ rest ∧
    v = decVal ds fs

end ExtractP

namespace HttpC

/-! ## `src/common/http.py` — resilient request with tenacity retry -/

/-- Outcome of one underlying `SESSION.request` call: either a raised network
exception (`RequestException`) or a response with a status code. -/
inductive Attempt where
  | exn (msg : String)
  | resp (status : Nat)
deriving DecidableEq

/-- The retry test inside the body of `request`: a network exception, a 429
(re-raised as `RequestException("429 for url")`) or a 5xx (re-raised as
`RequestException("status for url")`) all raise; the message is returned,
`none` meaning the response is handed back to the caller. -/
def retryableFail (url : String) : Attempt → Option String
  | .exn m => some m
  | .resp s =>
    if s = 429 then some ("429 for " ++ url)
    else if 500 ≤ s then some (toString s ++ " for " ++ url)
    else none

/-- Status returned to the caller for a non-raising attempt. -/
def statusOf : Attempt → Nat
  | .exn _ => 0
  | .resp s => s

/-- The tenacity loop around `request`: `stop_after_attempt` with
`reraise=True`, retrying exactly on `RequestException`.  `att k` is the
outcome of the `k`-th underlying call (0-based); the second argument is the
number of attempts still allowed. -/
def requestGo (url : String) (att : Nat → Attempt) : Nat → Nat → Except String Nat
  | _, 0 => .error "no attempts allowed"
  | k, n + 1 =>
    match retryableFail url (att k) with
    | none => .ok (statusOf (att k))
    | some e => if n = 0 then .error e else requestGo url att (k + 1) n

/-- `request` from `src/common/http.py` with the default
`stop_after_attempt(5)`. -/
def request (url : String) (att : Nat → Attempt) : Except String Nat :=
  requestGo url att 0 5

end HttpC

namespace ScrapeP

/-! ## `src/scrape/parse.py` — staged feed discovery with short circuit -/

/-- Oracle environment for `discover_feeds`: the candidate lists produced by
the five strategy closures (over the fetched homepage `html` and the page
`url`), the `_validate_feed` network check, and whether `vcr.mode` is unset
(validation only runs when `getattr(vcr, "mode", None) is None`). -/
structure Env where
  linkRel : List String
  defaults : List String
  anchors : List String
  feedfinder : List String
  extensions : List String
  validate : String → Bool
  vcrModeNone : Bool

/-- The `approaches` list of `discover_feeds`, in source order. -/
def stagesOf (env : Env) : List (String × List String) :=
  [("link-rel", env.linkRel), ("defaults", env.defaults), ("anchors", env.anchors),
   ("feedfinder2", env.feedfinder), ("extensions", env.extensions)]

/-- Inner loop of one stage: each candidate not already in `seen` is added to
`seen` and then validated (unless `vcr.mode` is set); survivors are collected
in order.  Returns `(valid, seen)` after the stage. -/
def stageFilter (env : Env) (seen : List String) :
    List String → List String × List String
  | [] => ([], seen)
  | c :: cs =>
    if c ∈ seen then stageFilter env seen cs
    else
      let r := stageFilter env (c :: seen) cs
      if env.vcrModeNone && !(env.validate c) then r else (c :: r.1, r.2)

/-- The stage loop of `discover_feeds`, instrumented: the first component is
the list returned (`valid` of the first succeeding stage, or `[]`), the second
records the names of the strategies the loop actually ran, in order — used to
state the short-circuit property. -/
def discoverLoop (env : Env) :
    List (String × List String) → List String → List String × List String
  | [], _ => ([], [])
  | (name, cands) :: rest, seen =>
    let fr := stageFilter env seen cands
    if fr.1 ≠ [] then (fr.1, [name])
    else
      let r := discoverLoop env rest fr.2
      (r.1, name :: r.2)

/-- `discover_feeds` from `src/scrape/parse.py` (instrumented with the list of
invoked strategy names). -/
def discover_feeds (env : Env) : List String × List String :=
  discoverLoop env (stagesOf env) []

/-- All candidates contributed to `seen` by the strategies before index `k`. -/
def seenBefore (env : Env) (k : Nat) : List String :=
  ((stagesOf env).take k).flatMap Prod.snd

/-- The surviving candidates of strategy `k`, deduplicated against everything
the earlier strategies produced and validated. -/
def survivorsAt (env : Env) (k : Nat) : List String :=
  (stageFilter env (seenBefore env k) (((stagesOf env).getD k ("", [])).2)).1

end ScrapeP

namespace Rss

/-! ## `src/scrape/rss.py` — domain-level discovery, entry fetching, run -/

/-- `FALLBACK_PATHS` from `src/scrape/rss.py`. -/
def FALLBACK_PATHS : List String :=
  ["feed", "rss", "rss.xml", "atom.xml", ".rss", "feed.xml", "index.xml",
   "feeds/posts/default", "feed.json"]

/-- A domain-list element: a string, a dict (with the value found under the
"domain" key, `none` when absent or `None`), or another object such as
`None`. -/
inductive DomEntry where
  | str (s : String)
  | dict (domain : Option String)
  | other
deriving DecidableEq

/-- Characters `urlparse` allows in a URL scheme. -/
def schemeChar (c : Char) : Bool := c.isAlphanum || c = '+' || c = '-' || c = '.'

/-- Modelled `urlparse(url).scheme` / `.netloc`: the scheme is the lower-cased
text before the first ':' when it forms a valid scheme token, and the netloc
is the text after "//" up to the next '/', '?' or '#' — the fragment of URL
parsing `_normalize_domain` relies on. -/
def urlSchemeNetloc (url : String) : String × String :=
  let u := url.data
  let pre := u.takeWhile (fun c => !(c = ':'))
  let netlocOf : List Char → String := fun r =>
    if ['/', '/'].isPrefixOf r then
      ⟨(r.drop 2).takeWhile (fun c => !(c = '/') && !(c = '?') && !(c = '#'))⟩
    else ""
  if pre.length < u.length && !pre.isEmpty &&
      (pre.headD 'a').isAlpha && pre.all schemeChar then
    (pyLower ⟨pre⟩, netlocOf (u.drop (pre.length + 1)))
  else ("", netlocOf u)

/-- `_normalize_domain` from `src/scrape/rss.py`. -/
def normalize_domain (entry : DomEntry) : Option String :=
  let domain? : Option String :=
    match entry with
    | .dict d => d
    | .str s => some s
    | .other => none
  match domain? with
  | none => none
  | some domain =>
    if domain = "" then none
    else
      let url := if pyIn "://" domain then domain else "https://" ++ domain
      let sn := urlSchemeNetloc url
      if (sn.1 = "http" || sn.1 = "https") && !(sn.2 = "") then some sn.2 else none

/-- `urlparse(url)._replace(query="", fragment="").geturl()`: everything from
the first '?' or '#' on is dropped. -/
def stripQueryFrag (s : String) : String :=
  ⟨s.data.takeWhile (fun c => !(c = '?') && !(c = '#'))⟩

/-- The dedup loop of `discover_feeds`: normalize each URL by stripping query
and fragment, then keep first occurrences. -/
def dedupNormGo : List String → List String → List String
  | [], _ => []
  | u :: us, seen =>
    let n := stripQueryFrag u
    if n ∈ seen then dedupNormGo us seen else n :: dedupNormGo us (n :: seen)

/-- The `unique`/`seen` block of `discover_feeds`. -/
def dedupNorm (urls : List String) : List String := dedupNormGo urls []

/-- Canonical first-occurrence deduplication (the spec-side reading of
"no duplicates, first-seen order preserved"). -/
def keepFirsts : List String → List String
  | [] => []
  | a :: l => a :: keepFirsts (l.filter (fun b => !(b = a)))
termination_by l => l.length
decreasing_by
  simp only [List.length_cons]
  exact Nat.lt_succ_of_le (List.length_filter_le _ _)

/-- Python dict assignment `m[k] = v` on an insertion-ordered association
list: overwrite in place when the key exists, else append. -/
def dictPut {β : Type} (m : List (String × β)) (k : String) (v : β) :
    List (String × β) :=
  if m.any (fun p => p.1 = k) then
    m.map (fun p => if p.1 = k then (k, v) else p)
  else m ++ [(k, v)]

/-- Python `d.get(k)` on an association list. -/
def dictGet? {β : Type} (m : List (String × β)) (k : String) : Option β :=
  (m.find? (fun p => p.1 = k)).map (fun p => p.2)

/-- Python `d.get(k, default)`. -/
def dictGetD (m : List (String × String)) (k d : String) : String :=
  (dictGet? m k).getD d

/-- Oracle environment for `src/scrape/rss.py`: the `requests.get` outcome
used by `_get_html` (`Except.error` = raised exception; `.ok` carries body,
status, content type), `feedfinder2.find_feeds`, the BeautifulSoup discovery
`_discover_with_bs`, the links `_FeedHTMLParser` collects from the HTML, and
the `_is_feed_url` network probe. -/
structure Env where
  fetchHtml : String → Except String (String × Nat × String)
  feedfinder : String → Except String (List String)
  bsDiscover : String → String → List String
  parserLinks : String → String → List String
  isFeedUrl : String → Bool

/-- `urljoin(base, p)` for a root base `https://netloc` and a relative path,
as `_fallback_feed_endpoints` uses it. -/
def joinRoot (base p : String) : String := base ++ "/" ++ p

/-- `_fallback_feed_endpoints` from `src/scrape/rss.py`. -/
def fallback_feed_endpoints (env : Env) (base : String) : List String :=
  FALLBACK_PATHS.filterMap (fun p =>
    let probe := joinRoot base p
    if env.isFeedUrl probe then some probe else none)

/-- `_get_html` from `src/scrape/rss.py`: `requests.get(url, ...)` with any
exception logged and then re-raised (`raise`), so the underlying outcome is
passed through unchanged — there is no fallback of any kind here. -/
def get_html (env : Env) (url : String) : Except String (String × Nat × String) :=
  match env.fetchHtml url with
  | .ok r => .ok r
  | .error e => .error e

/-- The candidate-gathering part of `discover_feeds` for one domain:
`feedfinder2.find_feeds(base_url) or []` under `try/except`, extended with
`_discover_with_bs`, falling back to `_FeedHTMLParser` links when still
empty, then to `_fallback_feed_endpoints`. -/
def foundFor (env : Env) (base html : String) : List String :=
  let found0 :=
    if !(html = "") then
      let ff := match env.feedfinder base with | .ok l => l | .error _ => []
      let extra := env.bsDiscover base html
      let f1 := if !(extra = []) then ff ++ extra else ff
      if f1 = [] then env.parserLinks base html else f1
    else []
  if found0 = [] then fallback_feed_endpoints env base else found0

/-- The domain loop of `discover_feeds` from `src/scrape/rss.py` (the
`_save_raw_html` diagnostic side effect is not modelled).  The body decodes
as UTF-8 with errors ignored; an empty body gives `html = ""`. -/
def discoverGo (env : Env) : List DomEntry → List (String × List String) →
    Except String (List (String × List String))
  | [], acc => .ok acc
  | e :: rest, acc =>
    match normalize_domain e with
    | none => discoverGo env rest acc
    | some nd =>
      let base := "https://" ++ nd
      match get_html env base with
      | .error err => .error err
      | .ok (body, _, _) =>
        let html := body
        let found := foundFor env base html
        let acc' := if !(found = []) then dictPut acc nd (dedupNorm found) else acc
        discoverGo env rest acc'

/-- `discover_feeds` from `src/scrape/rss.py`. -/
def discover_feeds (env : Env) (domains : List DomEntry) :
    Except String (List (String × List String)) :=
  discoverGo env domains []

/-- One Fisher–Yates swap `x[i], x[j] = x[j], x[i]` of `random.shuffle`. -/
def swapL {α : Type} (l : List α) (i j : Nat) : List α :=
  match l[i]?, l[j]? with
  | some a, some b => (l.set i b).set j a
  | _, _ => l

/-- The loop of `random.shuffle`:
`for i in reversed(range(1, len(x))): j = randbelow(i + 1); swap`.
`g n` models `randbelow(n)`. -/
def shuffleGo {α : Type} (g : Nat → Nat) : Nat → List α → List α
  | 0, l => l
  | i + 1, l => shuffleGo g i (swapL l (i + 1) (g (i + 2)))

/-- `random.shuffle(x)` (the result of the in-place permutation). -/
def shuffleFY {α : Type} (g : Nat → Nat) (l : List α) : List α :=
  shuffleGo g (l.length - 1) l

/-- Entry-collection loop of `fetch_entries` for one domain's (shuffled) URL
list: a parse failure is logged and skipped, a feed with entries contributes
`entries[:limit]`, and collection stops once `limit` entries are reached. -/
def collectGo {E : Type} (parseFeed : String → Except String (List E)) (limit : Nat) :
    List E → List String → List E
  | acc, [] => acc
  | acc, u :: us =>
    match parseFeed u with
    | .error _ => collectGo parseFeed limit acc us
    | .ok entries =>
      if !(entries.isEmpty) then
        let acc' := acc ++ entries.take limit
        if limit ≤ acc'.length then acc' else collectGo parseFeed limit acc' us
      else collectGo parseFeed limit acc us

/-- `fetch_entries` from `src/scrape/rss.py`, in state-passing form: the first
component is the per-domain result (`collected[:limit]`), the second is the
feed map after the in-place `random.shuffle(urls)` of every URL list —
modelling the mutation of the caller's argument. -/
def fetch_entries {E : Type} (parseFeed : String → Except String (List E))
    (g : Nat → Nat) (feedMap : List (String × List String)) (limit : Nat) :
    List (String × List E) × List (String × List String) :=
  match feedMap with
  | [] => ([], [])
  | (d, urls) :: rest =>
    let urls' := shuffleFY g urls
    let collected := collectGo parseFeed limit [] urls'
    let r := fetch_entries parseFeed g rest limit
    ((d, collected.take limit) :: r.1, (d, urls') :: r.2)

/-- `run` from `src/scrape/rss.py`: raise when no feeds at all were
discovered, fetch entries, then raise when any domain collected zero
entries. -/
def runRss {E : Type} (env : Env) (parseFeed : String → Except String (List E))
    (g : Nat → Nat) (domains : List DomEntry) :
    Except String (List (String × List E)) :=
  match discover_feeds env domains with
  | .error e => .error e
  | .ok feeds =>
    if feeds.isEmpty then .error "no feeds discovered"
    else
      let entries := (fetch_entries parseFeed g feeds 20).1
      if entries.any (fun p => p.2.length = 0) then
        .error "no entries fetched for some domains"
      else .ok entries

/-- Parser state of `_FeedHTMLParser`. -/
structure ParserState where
  feed_links : List String
  a_count : Nat
deriving DecidableEq

/-- The dict comprehension `{k.lower(): v for k, v in attrs if v}`: keep only
truthy values, lower-case the keys, later duplicates overwrite. -/
def attrsDict (attrs : List (String × Option String)) : List (String × String) :=
  attrs.foldl (fun m kv =>
    match kv.2 with
    | some v => if v = "" then m else dictPut m (pyLower kv.1) v
    | none => m) []

/-- `_FeedHTMLParser.handle_starttag` from `src/scrape/rss.py`.  `urljoin`
models `urllib.parse.urljoin` against the parser's base URL, `isFeed` the
`_is_feed_url` network probe. -/
def handle_starttag (isFeed : String → Bool) (urljoin : String → String → String)
    (base : String) (st : ParserState) (tag : String)
    (attrs : List (String × Option String)) : ParserState :=
  let tagL := pyLower tag
  if tagL = "a" then { st with a_count := st.a_count + 1 }
  else if tagL = "link" then
    let d := attrsDict attrs
    let rel := pyLower (dictGetD d "rel" "")
    let type_ := pyLower (dictGetD d "type" "")
    match dictGet? d "href" with
    | none => st
    | some href =>
      let candidate := urljoin base href
      if rel = "alternate" || pyStarts type_ "application/rss+xml" ||
          pyStarts type_ "application/atom+xml" ||
          pyStarts type_ "application/feed+json" ||
          pyIn "rss" type_ || pyIn "atom" type_ then
        if isFeed candidate then
          { st with feed_links := st.feed_links ++ [candidate] }
        else st
      else st
  else st

/-- The claim's reading of a feed-like `type` attribute: contains "rss" or
"atom", or matches one of the canonical feed MIME types. -/
def typeFeedLike (t : String) : Bool :=
  pyIn "rss" t || pyIn "atom" t || pyStarts t "application/rss+xml" ||
  pyStarts t "application/atom+xml" || pyStarts t "application/feed+json"

/-- The bot-challenge condition described by the spec for `getHtml` (status
403/429 or a challenge marker in the body, case-insensitive). -/
def specBlocked (body : String) (status : Nat) : Bool :=
  status = 403 || status = 429 || pyIn "captcha" (pyLower body) ||
  pyIn "are you human" (pyLower body) || pyIn "cloudflare" (pyLower body) ||
  pyIn "__cf_chl_jschl_tk__" (pyLower body)

/-! ### Concrete test environments -/

/-- Fetch succeeds with an empty body; every probe validates. -/
def envProbe : Env :=
  { fetchHtml := fun _ => .ok ("", 200, "text/html"),
    feedfinder := fun _ => .ok [],
    bsDiscover := fun _ _ => [],
    parserLinks := fun _ _ => [],
    isFeedUrl := fun _ => true }

/-- Fetch raises. -/
def envBoom : Env :=
  { envProbe with fetchHtml := fun _ => .error "boom" }

/-- Homepage fetch that succeeds only for `ok.example` (for the amended C2
theorem's witness). -/
def fetchSecondDown (u : String) : Except String (String × Nat × String) :=
  if u = "https://ok.example" then .ok ("", 200, "text/html")
  else .error "connection refused"

/-- Fetch succeeds for the first domain's homepage and raises for every
other one. -/
def envSecondDown : Env :=
  { envProbe with fetchHtml := fetchSecondDown }

/-- A page where `feedfinder2` reports the feed with a query string and
BeautifulSoup discovery reports the same feed without one. -/
def envDupFeed : Env :=
  { envProbe with
    fetchHtml := fun _ => .ok ("<html></html>", 200, "text/html"),
    feedfinder := fun _ => .ok ["https://example.com/feed.xml?utm=1"],
    bsDiscover := fun _ _ => ["https://example.com/feed.xml"] }

/-- Body of a blocked response carrying a bot-challenge marker. -/
def blockedBody : String := "<html>Please complete the CAPTCHA to continue</html>"

/-- Fetch succeeds but the response is a 403 bot challenge. -/
def envBlocked : Env :=
  { envProbe with fetchHtml := fun _ => .ok (blockedBody, 403, "text/html") }

/-- A feed parser that always returns zero entries. -/
def parseFeedEmpty : String → Except String (List String) := fun _ => .ok []

end Rss

namespace ScrapeP

/-- Environment where the link-rel stage finds nothing and the default-path
stage yields one valid candidate. -/
def envStage2 : Env :=
  { linkRel := [], defaults := ["https://example.com/feed"],
    anchors := ["https://example.com/rss"], feedfinder := [], extensions := [],
    validate := fun _ => true, vcrModeNone := true }

end ScrapeP

namespace HttpC

/-- Attempt sequence: two 429 responses, then a 200. -/
def attTwice429 : Nat → Attempt := fun k => if k < 2 then .resp 429 else .resp 200

/-- Attempt sequence: every call raises. -/
def attAlwaysExn : Nat → Attempt := fun _ => .exn "connection reset"

end HttpC

-- DEFINITIONS-BELOW-MARKER (further module definitions are inserted above)

/-! # Theorems -/

namespace ExtractP

/-! ### Correctness of the length matcher against a declarative pattern spec -/

lemma isSpc_not_dig {c : Char} (h : isSpc c = true) : isDig c = false := by
  simp only [isSpc, Bool.or_eq_true, decide_eq_true_eq] at h
  rcases h with ((((h | h) | h) | h) | h) | h <;> subst h <;> decide

lemma isSpc_ne_dot {c : Char} (h : isSpc c = true) : c ≠ '.' := by
  intro hc; subst hc; exact absurd h (by decide)

lemma takeWhile_dropWhile_append {α : Type} {p : α → Bool} :
    ∀ (ds rest : List α), (∀ c ∈ ds, p c = true) →
      (∀ c, rest.head? = some c → p c = false) →
      (ds ++ rest).takeWhile p = ds ∧ (ds ++ rest).dropWhile p = rest
  | [], rest, _, hrest => by
    cases rest with
    | nil => exact ⟨rfl, rfl⟩
    | cons c r =>
      have hc : p c = false := hrest c rfl
      refine ⟨?_, ?_⟩
      · simp [List.takeWhile_cons, hc]
      · simp [List.dropWhile_cons, hc]
  | d :: ds, rest, hds, hrest => by
    have hd : p d = true := hds d (List.mem_cons_self _ _)
    have ih := takeWhile_dropWhile_append ds rest
      (fun c hc => hds c (List.mem_cons_of_mem _ hc)) hrest
    refine ⟨?_, ?_⟩
    · simp [List.takeWhile_cons, hd, ih.1]
    · simp [List.dropWhile_cons, hd, ih.2]

/-- The tail stage matches exactly when `rest2` splits as whitespace then
`m`/`M`. -/
lemma afterNum_some_iff {ds fs rest2 : List Char} {v : ℚ} :
    afterNum ds fs rest2 = some v ↔
      ∃ ws rest, rest2 = ws ++ rest ∧ (∀ c ∈ ws, isSpc c = true) ∧
        (∃ r2, rest = 'm' :: r2 ∨ rest = 'M' :: r2) ∧ v = decVal ds fs := by
  constructor
  · intro h
    unfold afterNum at h
    rcases hdw : rest2.dropWhile isSpc with _ | ⟨c, tl⟩
    · rw [hdw] at h; exact absurd h (by simp)
    · rw [hdw] at h
      by_cases hc : c = 'm' ∨ c = 'M'
      · have hv : v = decVal ds fs := by
          rcases hc with hc | hc <;> subst hc <;>
            · have := h; simp only [] at this; simpa using this.symm
        refine ⟨rest2.takeWhile isSpc, c :: tl, ?_, ?_, ?_, hv⟩
        · rw [← hdw]; exact (List.takeWhile_append_dropWhile isSpc rest2).symm
        · exact fun c hc => List.mem_takeWhile_imp hc
        · rcases hc with hc | hc <;> subst hc
          · exact ⟨tl, Or.inl rfl⟩
          · exact ⟨tl, Or.inr rfl⟩
      · exfalso
        have hnm : ¬(c = 'm') := fun hh => hc (Or.inl hh)
        have hnM : ¬(c = 'M') := fun hh => hc (Or.inr hh)
        simp [hnm, hnM] at h
  · rintro ⟨ws, rest, hsplit, hws, ⟨r2, hr⟩, hv⟩
    have hhead : ∀ c, rest.head? = some c → isSpc c = false := by
      intro c hc
      rcases hr with hr | hr <;> subst hr <;>
        (rw [List.head?_cons] at hc; injection hc with hc; subst hc; decide)
    have hdw := (takeWhile_dropWhile_append ws rest hws hhead).2
    unfold afterNum
    rw [hsplit, hdw]
    rcases hr with hr | hr <;> subst hr <;> simp [hv]

/-- The head of the remainder that follows the numeric token is never a
digit. -/
lemma tail_head_not_dig (fs : List Char) {ws rest : List Char}
    (hws : ∀ c ∈ ws, isSpc c = true)
    (hmm : ∃ r2, rest = 'm' :: r2 ∨ rest = 'M' :: r2) :
    ∀ c, ((if fs = [] then ([] : List Char) else '.' :: fs) ++ ws ++ rest).head? = some c →
      isDig c = false := by
  intro c hc
  rcases hmm with ⟨r2, hr⟩
  by_cases hfse : fs = []
  · rw [if_pos hfse] at hc
    simp only [List.nil_append] at hc
    cases ws with
    | nil =>
      rcases hr with hr | hr <;> subst hr <;>
        (rw [List.nil_append, List.head?_cons] at hc; injection hc with hc; subst hc; decide)
    | cons w ws' =>
      rw [List.cons_append, List.head?_cons] at hc
      injection hc with hc; subst hc
      exact isSpc_not_dig (hws _ (List.mem_cons_self _ _))
  · rw [if_neg hfse] at hc
    rw [List.cons_append, List.cons_append, List.head?_cons] at hc
    injection hc with hc; subst hc; decide

/-- Likewise, its head is never a dot unless the fractional part is taken. -/
lemma tail_head_no_dot {ws rest : List Char}
    (hws : ∀ c ∈ ws, isSpc c = true)
    (hmm : ∃ r2, rest = 'm' :: r2 ∨ rest = 'M' :: r2) :
    ∀ r2', ws ++ rest ≠ '.' :: r2' := by
  intro r2' hcontra
  rcases hmm with ⟨r2, hr⟩
  cases ws with
  | nil =>
    rcases hr with hr | hr <;> subst hr <;>
      (rw [List.nil_append] at hcontra;
       exact absurd (List.cons.inj hcontra).1 (by decide))
  | cons w ws' =>
    rw [List.cons_append] at hcontra
    exact isSpc_ne_dot (hws w (List.mem_cons_self _ _)) (List.cons.inj hcontra).1

lemma matchAt_some_iff {cs : List Char} {v : ℚ} :
    matchAt cs = some v ↔ MatchSpecAt cs v := by
  constructor
  · intro h
    unfold matchAt at h
    by_cases hds : (cs.takeWhile isDig).isEmpty
    · rw [if_pos hds] at h; exact absurd h (by simp)
    · rw [if_neg hds] at h
      have hdsne : cs.takeWhile isDig ≠ [] := by
        simpa [List.isEmpty_iff] using hds
      have hdsdig : ∀ c ∈ cs.takeWhile isDig, isDig c = true :=
        fun c hc => List.mem_takeWhile_imp hc
      have hcs : cs = cs.takeWhile isDig ++ cs.dropWhile isDig :=
        (List.takeWhile_append_dropWhile isDig cs).symm
      split at h
      · rename_i r2 heq
        simp only [] at h
        split at h
        · rename_i hfs
          rcases afterNum_some_iff.mp h with ⟨ws, rest, hsplit, hws, ⟨t, hmm⟩, hv⟩
          exfalso
          cases ws with
          | nil =>
            rcases hmm with hr | hr <;> rw [hr] at hsplit <;>
              (rw [List.nil_append] at hsplit;
               exact absurd (List.cons.inj hsplit).1 (by decide))
          | cons w ws' =>
            exact isSpc_ne_dot (hws w (List.mem_cons_self _ _))
              (List.cons.inj hsplit).1.symm
        · rename_i hfs
          rcases afterNum_some_iff.mp h with ⟨ws, rest, hsplit, hws, hmm, hv⟩
          refine ⟨cs.takeWhile isDig, r2.takeWhile isDig, ws, rest,
            hdsne, hdsdig, ?_, hws, hmm, ?_, hv⟩
          · refine Or.inr ⟨by simpa [List.isEmpty_iff] using hfs,
              fun c hc => List.mem_takeWhile_imp hc⟩
          · have hfsne : r2.takeWhile isDig ≠ [] := by
              simpa [List.isEmpty_iff] using hfs
            rw [if_neg hfsne]
            have hr2 : r2 = r2.takeWhile isDig ++ r2.dropWhile isDig :=
              (List.takeWhile_append_dropWhile isDig r2).symm
            calc cs = cs.takeWhile isDig ++ cs.dropWhile isDig := hcs
              _ = cs.takeWhile isDig ++ ('.' :: r2) := by rw [heq]
              _ = cs.takeWhile isDig ++ ('.' :: (r2.takeWhile isDig ++ (ws ++ rest))) := by
                    rw [← hsplit, ← hr2]
              _ = cs.takeWhile isDig ++ ('.' :: r2.takeWhile isDig) ++ ws ++ rest := by
                    simp
      · rename_i hnodot
        rcases afterNum_some_iff.mp h with ⟨ws, rest, hsplit, hws, hmm, hv⟩
        refine ⟨cs.takeWhile isDig, [], ws, rest, hdsne, hdsdig, Or.inl rfl, hws, hmm, ?_, hv⟩
        rw [if_pos rfl]
        calc cs = cs.takeWhile isDig ++ cs.dropWhile isDig := hcs
          _ = cs.takeWhile isDig ++ [] ++ ws ++ rest := by rw [hsplit]; simp
  · rintro ⟨ds, fs, ws, rest, hdsne, hdsdig, hfs, hws, hmm, hcs, hv⟩
    have hwsrest : ∀ c, (ws ++ rest).head? = some c → isDig c = false := by
      have := tail_head_not_dig [] hws hmm
      simpa using this
    have hafter : afterNum ds fs (ws ++ rest) = some v := by
      rw [afterNum_some_iff]
      exact ⟨ws, rest, rfl, hws, hmm, hv⟩
    rcases hfs with hfse | ⟨hfsne, hfsdig⟩
    · subst hfse
      rw [if_pos rfl] at hcs
      have hcs' : cs = ds ++ (ws ++ rest) := by
        simpa [List.append_assoc] using hcs
      have hsplit := takeWhile_dropWhile_append (p := isDig) ds (ws ++ rest) hdsdig hwsrest
      unfold matchAt
      rw [hcs', hsplit.1, hsplit.2]
      rw [if_neg (by simpa [List.isEmpty_iff] using hdsne)]
      split
      · rename_i r2' heq
        exact absurd heq (tail_head_no_dot hws hmm r2')
      · exact hafter
    · rw [if_neg hfsne] at hcs
      have hsplitfs := takeWhile_dropWhile_append (p := isDig) fs (ws ++ rest) hfsdig hwsrest
      have hdrop : ∀ c, (('.' : Char) :: (fs ++ (ws ++ rest))).head? = some c →
          isDig c = false := by
        intro c hc
        rw [List.head?_cons] at hc
        injection hc with hc; subst hc; decide
      have hcs' : cs = ds ++ ('.' :: (fs ++ (ws ++ rest))) := by
        rw [hcs]; simp
      have hsplit := takeWhile_dropWhile_append (p := isDig) ds
        ('.' :: (fs ++ (ws ++ rest))) hdsdig hdrop
      unfold matchAt
      rw [hcs', hsplit.1, hsplit.2]
      rw [if_neg (by simpa [List.isEmpty_iff] using hdsne)]
      split
      · rename_i r2' heq
        have hr2' : r2' = fs ++ (ws ++ rest) := (List.cons.inj heq).2.symm
        subst hr2'
        rw [hsplitfs.1, hsplitfs.2]
        rw [if_neg (by simpa [List.isEmpty_iff] using hfsne)]
        exact hafter
      · rename_i hnodot
        exact absurd rfl (hnodot (fs ++ (ws ++ rest)))

lemma not_matchSpecAt_nil (v : ℚ) : ¬ MatchSpecAt [] v := by
  rintro ⟨ds, fs, ws, rest, hdsne, -, -, -, -, hcs, -⟩
  rcases List.append_eq_nil.mp ((List.append_eq_nil.mp
    ((List.append_eq_nil.mp hcs.symm).1)).1) with ⟨hds, -⟩
  exact hdsne hds

lemma matchAt_none_iff {cs : List Char} :
    matchAt cs = none ↔ ∀ v, ¬ MatchSpecAt cs v := by
  constructor
  · intro h v hv
    rw [matchAt_some_iff.mpr hv] at h
    exact Option.noConfusion h
  · intro h
    cases hm : matchAt cs with
    | none => rfl
    | some w => exact absurd (matchAt_some_iff.mp hm) (h w)

theorem searchLen_some_iff (cs : List Char) (v : ℚ) :
    searchLen cs = some v ↔
      ∃ i, MatchSpecAt (cs.drop i) v ∧
        ∀ j, j < i → ∀ w, ¬ MatchSpecAt (cs.drop j) w := by
  induction cs with
  | nil =>
    constructor
    · intro h; exact absurd h (by simp [searchLen])
    · rintro ⟨i, hi, -⟩
      rw [List.drop_nil] at hi
      exact absurd hi (not_matchSpecAt_nil v)
  | cons c cs ih =>
    cases hm : matchAt (c :: cs) with
    | some w =>
      have hsearch : searchLen (c :: cs) = some w := by
        simp only [searchLen, hm]
      rw [hsearch]
      constructor
      · intro h
        have hv : w = v := Option.some.inj h
        subst hv
        exact ⟨0, by simpa using matchAt_some_iff.mp hm,
          fun j hj => absurd hj (Nat.not_lt_zero j)⟩
      · rintro ⟨i, hi, hmin⟩
        cases i with
        | zero =>
          rw [List.drop_zero] at hi
          rw [← matchAt_some_iff.mpr hi, hm]
        | succ i' =>
          exact absurd (by simpa using matchAt_some_iff.mp hm)
            (hmin 0 (Nat.succ_pos i') w)
    | none =>
      have hsearch : searchLen (c :: cs) = searchLen cs := by
        simp only [searchLen, hm]
      rw [hsearch, ih]
      constructor
      · rintro ⟨i, hi, hmin⟩
        refine ⟨i + 1, by simpa using hi, ?_⟩
        intro j hj w
        cases j with
        | zero =>
          rw [List.drop_zero]
          exact matchAt_none_iff.mp hm w
        | succ j' =>
          rw [List.drop_succ_cons]
          exact hmin j' (Nat.lt_of_succ_lt_succ hj) w
      · rintro ⟨i, hi, hmin⟩
        cases i with
        | zero =>
          rw [List.drop_zero] at hi
          exact absurd hi (matchAt_none_iff.mp hm v)
        | succ i' =>
          refine ⟨i', by simpa using hi, ?_⟩
          intro j hj w
          have := hmin (j + 1) (Nat.succ_lt_succ hj) w
          simpa using this

theorem searchLen_none_iff (cs : List Char) :
    searchLen cs = none ↔ ∀ i v, ¬ MatchSpecAt (cs.drop i) v := by
  induction cs with
  | nil =>
    simp only [searchLen, true_iff]
    intro i v hi
    rw [List.drop_nil] at hi
    exact not_matchSpecAt_nil v hi
  | cons c cs ih =>
    cases hm : matchAt (c :: cs) with
    | some w =>
      have hsearch : searchLen (c :: cs) = some w := by
        simp only [searchLen, hm]
      rw [hsearch]
      constructor
      · intro h; exact absurd h (by simp)
      · intro h
        exact absurd (by simpa using matchAt_some_iff.mp hm) (h 0 w)
    | none =>
      have hsearch : searchLen (c :: cs) = searchLen cs := by
        simp only [searchLen, hm]
      rw [hsearch, ih]
      constructor
      · intro h i v
        cases i with
        | zero =>
          rw [List.drop_zero]
          exact matchAt_none_iff.mp hm v
        | succ i' =>
          rw [List.drop_succ_cons]
          exact h i' v
      · intro h i v
        have := h (i + 1) v
        simpa using this

/-- C8: `parse_entry` sets `length_m` to the value of the first (leftmost)
token consisting of digits with an optional decimal part, immediately followed
by optional whitespace and the letter `m` (case-insensitive), searched in the
comma-stripped concatenation of title and summary, and to `none` when no such
token exists; in particular the title "Azzam 180m luxury yacht" yields name
"Azzam 180m luxury yacht" and `length_m = 180`. -/
theorem C8_parse_entry_length_spec :
    (∀ (e : PyEntry) (v : ℚ),
        (parse_entry e).length_m = some v ↔
          ∃ i, MatchSpecAt ((entryText e).drop i) v ∧
            ∀ j, j < i → ∀ w, ¬ MatchSpecAt ((entryText e).drop j) w) ∧
    (∀ e : PyEntry, (parse_entry e).length_m = none ↔
        ∀ i v, ¬ MatchSpecAt ((entryText e).drop i) v) ∧
    parse_entry { title := some (some "Azzam 180m luxury yacht") } =
      { name := "Azzam 180m luxury yacht", length_m := some 180,
        link := none, published := none, summary := none } := by
  refine ⟨?_, ?_, ?_⟩
  · intro e v
    have h : (parse_entry e).length_m = searchLen (entryText e) := rfl
    rw [h]
    exact searchLen_some_iff _ _
  · intro e
    have h : (parse_entry e).length_m = searchLen (entryText e) := rfl
    rw [h]
    exact searchLen_none_iff _
  · have h1 : parse_entry { title := some (some "Azzam 180m luxury yacht") } =
        { name := "Azzam 180m luxury yacht",
          length_m := some (decVal ['1', '8', '0'] []),
          link := none, published := none, summary := none } := rfl
    rw [h1]
    have h2 : decVal ['1', '8', '0'] [] = 180 := by
      have h3 : natOfDigits ['1', '8', '0'] = 180 := by decide
      have h4 : natOfDigits ([] : List Char) = 0 := rfl
      rw [decVal, h3, h4]
      norm_num
    rw [h2]

/-- C10: when both the title and the summary key are absent or `None`,
`parse_entry` does not raise: it returns name `""` and `length_m = none`,
with the other keys carried through unchanged. -/
theorem C10_parse_entry_missing_title_summary (e : PyEntry)
    (ht : e.title = none ∨ e.title = some none)
    (hs : e.summary = none ∨ e.summary = some none) :
    parse_entry e = { name := "", length_m := none,
                      link := e.link, published := e.published,
                      summary := e.summary } := by
  have h1 : getOrEmpty e.title = "" := by rcases ht with h | h <;> rw [h] <;> rfl
  have h2 : getOrEmpty e.summary = "" := by rcases hs with h | h <;> rw [h] <;> rfl
  unfold parse_entry
  rw [h1, h2]
  rfl

/-- Witness for C10, at an entry whose title and summary are both `None`. -/
theorem C10_witness :
    parse_entry { title := some none, summary := some none } =
      { name := "", length_m := none, link := none, published := none,
        summary := some none } :=
  C10_parse_entry_missing_title_summary _ (Or.inr rfl) (Or.inr rfl)

end ExtractP

namespace HttpC

/-! ### C5 — retry semantics of the resilient `request` -/

lemma requestGo_ok (url : String) (att : Nat → Attempt) :
    ∀ (n i k : Nat), i < n →
      (∀ j, j < i → retryableFail url (att (k + j)) ≠ none) →
      retryableFail url (att (k + i)) = none →
      requestGo url att k n = .ok (statusOf (att (k + i)))
  | 0, i, _, hi, _, _ => absurd hi (Nat.not_lt_zero i)
  | n + 1, 0, k, _, _, hk => by
    simp only [Nat.add_zero] at hk
    simp only [requestGo, hk, Nat.add_zero]
  | n + 1, i + 1, k, hi, hfail, hk => by
    have h0 : retryableFail url (att k) ≠ none := by
      have := hfail 0 (Nat.succ_pos i)
      simpa using this
    rcases he : retryableFail url (att k) with _ | e
    · exact absurd he h0
    · have hn : n ≠ 0 := by
        intro h0n; subst h0n
        exact absurd (Nat.lt_of_succ_lt_succ hi) (Nat.not_lt_zero i)
      have hrec := requestGo_ok url att n i (k + 1) (Nat.lt_of_succ_lt_succ hi)
        (fun j hj => by
          have := hfail (j + 1) (Nat.succ_lt_succ hj)
          rwa [show k + (j + 1) = k + 1 + j by omega] at this)
        (by rwa [show k + 1 + i = k + (i + 1) by omega])
      simp only [requestGo, he, if_neg hn]
      rw [hrec, show k + 1 + i = k + (i + 1) by omega]

lemma requestGo_err (url : String) (att : Nat → Attempt) :
    ∀ (n k : Nat) (e : String), 0 < n →
      (∀ j, j < n → retryableFail url (att (k + j)) ≠ none) →
      retryableFail url (att (k + (n - 1))) = some e →
      requestGo url att k n = .error e
  | 0, _, _, h0, _, _ => absurd h0 (Nat.lt_irrefl 0)
  | n + 1, k, e, _, hfail, hlast => by
    rcases he : retryableFail url (att k) with _ | e'
    · exact absurd he (by simpa using hfail 0 (Nat.succ_pos n))
    · cases n with
      | zero =>
        have he' : e' = e := by
          rw [show k + (0 + 1 - 1) = k by omega, he] at hlast
          exact Option.some.inj hlast
        simp only [requestGo, he, he']
        rfl
      | succ m =>
        have hrec := requestGo_err url att (m + 1) (k + 1) e (Nat.succ_pos m)
          (fun j hj => by
            have := hfail (j + 1) (Nat.succ_lt_succ hj)
            rwa [show k + (j + 1) = k + 1 + j by omega] at this)
          (by rwa [show k + 1 + (m + 1 - 1) = k + (m + 1 + 1 - 1) by omega])
        simp only [requestGo, he, if_neg (Nat.succ_ne_zero m)]
        exact hrec

/-- C5: `request` retries on network exceptions and on 5xx/429 responses with
at most 5 attempts: whenever fewer than 5 leading attempts fail and the next
one succeeds, its response is returned; when all 5 attempts fail, the final
failure is re-raised to the caller. -/
theorem C5_request_retry_semantics (url : String) (att : Nat → Attempt) :
    (∀ k, k < 5 →
      (∀ j, j < k → retryableFail url (att j) ≠ none) →
      retryableFail url (att k) = none →
      request url att = .ok (statusOf (att k))) ∧
    ((∀ j, j < 5 → retryableFail url (att j) ≠ none) →
      ∀ e, retryableFail url (att 4) = some e → request url att = .error e) := by
  constructor
  · intro k hk hfail hsucc
    have := requestGo_ok url att 5 k 0 hk (by simpa using hfail) (by simpa using hsucc)
    simpa [request] using this
  · intro hfail e hlast
    have := requestGo_err url att 5 0 e (by omega) (by simpa using hfail)
      (by simpa using hlast)
    simpa [request] using this

/-- Witness for C5: two 429 responses followed by a 200 return the 200, and
five straight network exceptions re-raise the final failure. -/
theorem C5_witness :
    request "https://u" attTwice429 = .ok 200 ∧
    request "https://u" attAlwaysExn = .error "connection reset" := by
  constructor
  · exact (C5_request_retry_semantics "https://u" attTwice429).1 2 (by decide)
      (by decide) (by decide)
  · exact (C5_request_retry_semantics "https://u" attAlwaysExn).2 (by decide) _ rfl

end HttpC

namespace Rss

/-! ### C2 — a fetch failure aborts the batch -/

/-- C2 is false on the code: `_get_html` re-raises fetch failures
("fails fast", per its own docstring) and `discover_feeds` does not catch
them, so a single domain's fetch failure raises out of `discover_feeds`. -/
theorem C2_counterexample :
    discover_feeds envBoom [DomEntry.str "example.com"] = .error "boom" := rfl

lemma discoverGo_error_propagates (env : Env) (e : DomEntry)
    (rest : List DomEntry) (nd err : String)
    (hnorm : normalize_domain e = some nd)
    (hfetch : env.fetchHtml ("https://" ++ nd) = .error err) :
    ∀ (pre : List DomEntry) (acc : List (String × List String)),
      (∀ p ∈ pre, ∀ nd', normalize_domain p = some nd' →
        ∃ r, env.fetchHtml ("https://" ++ nd') = .ok r) →
      discoverGo env (pre ++ e :: rest) acc = .error err
  | [], acc, _ => by
    simp only [List.nil_append, discoverGo, hnorm, get_html, hfetch]
  | p :: pre, acc, hpre => by
    cases hn : normalize_domain p with
    | none =>
      simp only [List.cons_append, discoverGo, hn]
      exact discoverGo_error_propagates env e rest nd err hnorm hfetch pre acc
        (fun q hq => hpre q (List.mem_cons_of_mem _ hq))
    | some nd' =>
      obtain ⟨r, hr⟩ := hpre p (List.mem_cons_self _ _) nd' hn
      obtain ⟨body, stc, ct⟩ := r
      simp only [List.cons_append, discoverGo, hn, get_html, hr]
      exact discoverGo_error_propagates env e rest nd err hnorm hfetch pre _
        (fun q hq => hpre q (List.mem_cons_of_mem _ hq))

/-- C2 (amended): a failure to fetch a domain's homepage is re-raised by
`_get_html` and propagates out of `discover_feeds`, aborting the batch as
soon as that domain is reached — wherever it sits in the input list, given
that the domains before it process without raising (each is invalid or its
homepage fetch succeeds); the helper does not return an empty body with
status 0. -/
theorem C2_amended_fetch_failure_propagates (env : Env) (pre : List DomEntry)
    (e : DomEntry) (rest : List DomEntry) (nd err : String)
    (hpre : ∀ p ∈ pre, ∀ nd', normalize_domain p = some nd' →
      ∃ r, env.fetchHtml ("https://" ++ nd') = .ok r)
    (hnorm : normalize_domain e = some nd)
    (hfetch : env.fetchHtml ("https://" ++ nd) = .error err) :
    discover_feeds env (pre ++ e :: rest) = .error err := by
  unfold discover_feeds
  exact discoverGo_error_propagates env e rest nd err hnorm hfetch pre [] hpre

/-- Witness for the amended C2: the second domain's fetch failure aborts the
batch after the first domain was processed and even though a third
follows. -/
theorem C2_amended_witness :
    discover_feeds envSecondDown
      [DomEntry.str "ok.example", DomEntry.str "down.example",
       DomEntry.str "later.example"] =
      .error "connection refused" :=
  C2_amended_fetch_failure_propagates envSecondDown [DomEntry.str "ok.example"]
    (DomEntry.str "down.example") [DomEntry.str "later.example"] "down.example"
    "connection refused"
    (by
      intro p hp nd' hn
      have hp' : p = DomEntry.str "ok.example" := by simpa using hp
      subst hp'
      have hok : normalize_domain (DomEntry.str "ok.example") =
          some "ok.example" := rfl
      rw [hok] at hn
      have hnd : nd' = "ok.example" := (Option.some.inj hn).symm
      subst hnd
      exact ⟨("", 200, "text/html"), rfl⟩)
    rfl rfl

/-! ### C6 — no browser fallback exists in `_get_html` -/

/-- C6 names a behaviour the code does not have: on a 403 response whose body
carries a "captcha" marker, `_get_html` hands back the blocked response
itself.  Nothing in the package calls `fetch_with_browser`
(`src/common/browser_fetch.py`), although `tests/test_browser_fallback.py`
asserts that `_get_html` falls back to it. -/
theorem C6_get_html_returns_blocked_response :
    get_html envBlocked "https://blocked.example" =
      .ok (blockedBody, 403, "text/html") ∧
    specBlocked blockedBody 403 = true :=
  ⟨rfl, by decide⟩

/-! ### C4 — the link extractor's condition is a disjunction -/

/-- C4 is false on the code: `_FeedHTMLParser.handle_starttag` emits a tag
whose `rel` is "alternate" even though its `type` ("text/css") is not
feed-like, because the source combines the two conditions with `or`. -/
theorem C4_counterexample :
    (handle_starttag (fun _ => true) (fun b h => b ++ h) "https://e.com"
        { feed_links := [], a_count := 0 } "link"
        [("rel", some "alternate"), ("type", some "text/css"),
         ("href", some "/x")]).feed_links = ["https://e.com/x"] ∧
    typeFeedLike (pyLower "text/css") = false :=
  ⟨rfl, by decide⟩

/-! ### C7 — `run` also raises when a domain collects zero entries -/

/-- C7 is false on the code: with feeds discovered for a domain, `run` still
raises (`ValueError("no entries fetched for some domains")`) when that
domain's confirmed feeds yield zero entries. -/
theorem C7_counterexample :
    (∃ feeds, discover_feeds envProbe [DomEntry.str "example.com"] = .ok feeds ∧
      feeds ≠ []) ∧
    runRss envProbe parseFeedEmpty (fun _ => 0) [DomEntry.str "example.com"] =
      .error "no entries fetched for some domains" := by
  refine ⟨⟨_, rfl, ?_⟩, rfl⟩
  decide

/-- C7 (amended): given discovery completes without a fetch error, `run`
raises a fatal error iff zero feeds were discovered across the whole domain
set OR at least one domain's fetched entry list is empty. -/
theorem C7_amended_run_raises_iff {E : Type} (env : Env)
    (parseFeed : String → Except String (List E)) (g : Nat → Nat)
    (domains : List DomEntry) (feeds : List (String × List String))
    (h : discover_feeds env domains = .ok feeds) :
    (∃ msg, runRss env parseFeed g domains = .error msg) ↔
      (feeds = [] ∨
        (fetch_entries parseFeed g feeds 20).1.any (fun p => p.2.length = 0) = true) := by
  simp only [runRss, h]
  by_cases hfe : feeds.isEmpty = true
  · rw [if_pos hfe]
    constructor
    · intro _; exact Or.inl (List.isEmpty_iff.mp hfe)
    · intro _; exact ⟨_, rfl⟩
  · rw [if_neg hfe]
    by_cases hany : (fetch_entries parseFeed g feeds 20).1.any
        (fun p => p.2.length = 0) = true
    · rw [if_pos hany]
      constructor
      · intro _; exact Or.inr hany
      · intro _; exact ⟨_, rfl⟩
    · rw [if_neg hany]
      constructor
      · rintro ⟨msg, hmsg⟩; exact Except.noConfusion hmsg
      · rintro (hnil | ha)
        · exact absurd (by rw [hnil]; rfl) hfe
        · exact absurd ha hany

/-- Witness for the amended C7: a domain with nine confirmed probe feeds but
zero fetched entries makes `run` raise. -/
theorem C7_amended_witness :
    ∃ msg, runRss envProbe parseFeedEmpty (fun _ => 0)
      [DomEntry.str "example.com"] = .error msg :=
  (C7_amended_run_raises_iff envProbe parseFeedEmpty (fun _ => 0)
    [DomEntry.str "example.com"] _ rfl).mpr (Or.inr (by decide))

lemma append_singleton_ne (l : List String) (c : String) : l ++ [c] ≠ l := by
  intro h
  have := congrArg List.length h
  simp at this

/-- C4 (amended): for a `<link>` tag, `handle_starttag` emits the
base-resolved href exactly when the tag has a truthy `href`, its `rel` equals
"alternate" (case-insensitively) OR its `type` is feed-like, and the candidate
passes the live `_is_feed_url` probe — the two attribute conditions are
combined with a disjunction, not the claim's conjunction. -/
theorem C4_amended_link_emission (isFeed : String → Bool)
    (urljoin : String → String → String) (base : String) (st : ParserState)
    (attrs : List (String × Option String)) :
    (handle_starttag isFeed urljoin base st "link" attrs).feed_links ≠ st.feed_links ↔
      ∃ href, dictGet? (attrsDict attrs) "href" = some href ∧
        (pyLower (dictGetD (attrsDict attrs) "rel" "") = "alternate" ∨
          typeFeedLike (pyLower (dictGetD (attrsDict attrs) "type" "")) = true) ∧
        isFeed (urljoin base href) = true := by
  simp only [handle_starttag]
  rw [if_neg (by decide : ¬(pyLower "link" = "a")),
      if_pos (by decide : pyLower "link" = "link")]
  cases hh : dictGet? (attrsDict attrs) "href" with
  | none =>
    simp only [hh]
    constructor
    · intro hne; exact absurd rfl hne
    · rintro ⟨href, hsome, -, -⟩; exact Option.noConfusion hsome
  | some href =>
    simp only [hh]
    split
    · rename_i hcond
      split
      · rename_i hfeed
        constructor
        · intro _
          refine ⟨href, rfl, ?_, hfeed⟩
          simp only [typeFeedLike, Bool.or_eq_true, decide_eq_true_eq] at hcond ⊢
          tauto
        · intro _
          exact append_singleton_ne st.feed_links (urljoin base href)
      · rename_i hfeed
        constructor
        · intro hne; exact absurd rfl hne
        · rintro ⟨href', hsome, -, hfeed'⟩
          have : href' = href := Option.some.inj hsome.symm
          subst this
          exact absurd hfeed' hfeed
    · rename_i hcond
      constructor
      · intro hne; exact absurd rfl hne
      · rintro ⟨href', hsome, hor, -⟩
        have : href' = href := Option.some.inj hsome.symm
        subst this
        simp only [typeFeedLike, Bool.or_eq_true, decide_eq_true_eq] at hcond hor
        tauto

/-! ### C9 — `fetch_entries` shuffles each list of the argument in place -/

lemma cons_set_perm {α : Type} :
    ∀ (t : List α) (k : Nat) (a b : α), t[k]? = some b →
      List.Perm (b :: t.set k a) (a :: t)
  | [], k, _, _, h => absurd h (by simp)
  | c :: t, 0, a, b, h => by
    have hb : b = c := by simpa using h.symm
    subst hb
    exact List.Perm.swap a b t
  | c :: t, k + 1, a, b, h => by
    have h' : t[k]? = some b := by simpa using h
    have hset : (c :: t).set (k + 1) a = c :: t.set k a := List.set_cons_succ c t k a
    rw [hset]
    have p1 : List.Perm (b :: c :: t.set k a) (c :: b :: t.set k a) :=
      List.Perm.swap c b _
    have p2 : List.Perm (c :: b :: t.set k a) (c :: (a :: t)) :=
      List.Perm.cons c (cons_set_perm t k a b h')
    have p3 : List.Perm (c :: a :: t) (a :: c :: t) := List.Perm.swap a c t
    exact p1.trans (p2.trans p3)

lemma swapL_cons_succ {α : Type} (c : α) (t : List α) (i k : Nat) :
    swapL (c :: t) (i + 1) (k + 1) = c :: swapL t i k := by
  unfold swapL
  cases hi : t[i]? <;> cases hk : t[k]? <;>
    simp [hi, hk]

lemma swapL_perm {α : Type} : ∀ (l : List α) (i j : Nat), List.Perm (swapL l i j) l
  | [], _, _ => List.Perm.refl _
  | c :: t, 0, 0 => by
    have h : swapL (c :: t) 0 0 = c :: t := by
      unfold swapL; rw [List.getElem?_cons_zero]; rfl
    rw [h]
  | c :: t, 0, k + 1 => by
    cases hk : t[k]? with
    | none =>
      have h : swapL (c :: t) 0 (k + 1) = c :: t := by
        unfold swapL; rw [List.getElem?_cons_succ, hk, List.getElem?_cons_zero]
      rw [h]
    | some b =>
      have h : swapL (c :: t) 0 (k + 1) = b :: t.set k c := by
        unfold swapL; rw [List.getElem?_cons_succ, List.getElem?_cons_zero, hk]; rfl
      rw [h]
      exact cons_set_perm t k c b hk
  | c :: t, i + 1, 0 => by
    cases hi : t[i]? with
    | none =>
      have h : swapL (c :: t) (i + 1) 0 = c :: t := by
        unfold swapL; rw [List.getElem?_cons_succ, hi, List.getElem?_cons_zero]
      rw [h]
    | some a =>
      have h : swapL (c :: t) (i + 1) 0 = a :: t.set i c := by
        unfold swapL; rw [List.getElem?_cons_succ, List.getElem?_cons_zero, hi]; rfl
      rw [h]
      exact cons_set_perm t i c a hi
  | c :: t, i + 1, k + 1 => by
    rw [swapL_cons_succ]
    exact List.Perm.cons c (swapL_perm t i k)

lemma shuffleGo_perm {α : Type} (g : Nat → Nat) :
    ∀ (n : Nat) (l : List α), List.Perm (shuffleGo g n l) l
  | 0, l => List.Perm.refl l
  | n + 1, l =>
    List.Perm.trans (shuffleGo_perm g n (swapL l (n + 1) (g (n + 2))))
      (swapL_perm l (n + 1) (g (n + 2)))

lemma shuffleFY_perm {α : Type} (g : Nat → Nat) (l : List α) :
    List.Perm (shuffleFY g l) l :=
  shuffleGo_perm g (l.length - 1) l

/-- C9: `fetch_entries` mutates its feed-map argument: every domain's URL
list is shuffled in place, so afterwards the map has the same keys and each
list holds exactly the same multiset of URLs as before, possibly reordered
(the post-state is the second component of the embedded state-passing
result). -/
theorem C9_fetch_entries_mutates_feed_map {E : Type}
    (parseFeed : String → Except String (List E)) (g : Nat → Nat)
    (feedMap : List (String × List String)) (limit : Nat) :
    ((fetch_entries parseFeed g feedMap limit).2.map Prod.fst =
        feedMap.map Prod.fst) ∧
    List.Forall₂ (fun p q => p.1 = q.1 ∧
        (p.2 : Multiset String) = (q.2 : Multiset String))
      feedMap (fetch_entries parseFeed g feedMap limit).2 := by
  induction feedMap with
  | nil => exact ⟨rfl, List.Forall₂.nil⟩
  | cons p rest ih =>
    obtain ⟨d, urls⟩ := p
    constructor
    · simp only [fetch_entries, List.map_cons]
      rw [ih.1]
    · exact List.Forall₂.cons
        ⟨rfl, (Multiset.coe_eq_coe.mpr (shuffleFY_perm g urls)).symm⟩ ih.2

/-! ### C3 — normalization and deduplication of the feed map -/

lemma takeWhile_all {α : Type} (p : α → Bool) (l : List α)
    (h : ∀ c ∈ l, p c = true) : l.takeWhile p = l := by
  have := (ExtractP.takeWhile_dropWhile_append (p := p) l [] h
    (fun c hc => by simp at hc)).1
  simpa using this

lemma stripQF_idem (s : String) :
    stripQueryFrag (stripQueryFrag s) = stripQueryFrag s := by
  unfold stripQueryFrag
  congr 1
  show List.takeWhile (fun c => !(c = '?') && !(c = '#'))
      (s.data.takeWhile (fun c => !(c = '?') && !(c = '#'))) =
    s.data.takeWhile (fun c => !(c = '?') && !(c = '#'))
  apply takeWhile_all
  intro c hc
  have h2 := List.mem_takeWhile_imp hc
  exact h2

lemma keepFirsts_aux : ∀ (n : Nat) (l : List String), l.length ≤ n →
    (keepFirsts l).Nodup ∧ (∀ x, x ∈ keepFirsts l ↔ x ∈ l)
  | 0, l, h => by
    have : l = [] := List.eq_nil_of_length_eq_zero (Nat.le_zero.mp h)
    subst this
    simp [keepFirsts]
  | n + 1, [], _ => by simp [keepFirsts]
  | n + 1, a :: t, h => by
    have hlen : (t.filter (fun b => !(b = a))).length ≤ n :=
      Nat.le_trans (List.length_filter_le _ _) (Nat.le_of_succ_le_succ h)
    have ih := keepFirsts_aux n (t.filter (fun b => !(b = a))) hlen
    have heq : keepFirsts (a :: t) = a :: keepFirsts (t.filter (fun b => !(b = a))) := by
      simp [keepFirsts]
    rw [heq]
    constructor
    · refine List.nodup_cons.mpr ⟨?_, ih.1⟩
      intro hmem
      have := (ih.2 a).mp hmem
      rcases List.mem_filter.mp this with ⟨-, hne⟩
      simp at hne
    · intro x
      rw [List.mem_cons, ih.2 x, List.mem_cons]
      by_cases hx : x = a
      · subst hx; simp
      · simp only [hx, false_or]
        rw [List.mem_filter]
        simp [hx]

lemma dedupNormGo_eq : ∀ (l seen : List String),
    dedupNormGo l seen =
      keepFirsts ((l.map stripQueryFrag).filter (fun x => !(decide (x ∈ seen))))
  | [], seen => by simp [dedupNormGo, keepFirsts]
  | u :: us, seen => by
    by_cases hn : stripQueryFrag u ∈ seen
    · simp only [dedupNormGo, if_pos hn, List.map_cons]
      rw [List.filter_cons_of_neg (by simpa using hn)]
      exact dedupNormGo_eq us seen
    · simp only [dedupNormGo, if_neg hn, List.map_cons]
      rw [List.filter_cons_of_pos (by simpa using hn)]
      have heq : keepFirsts (stripQueryFrag u ::
          (us.map stripQueryFrag).filter (fun x => !(decide (x ∈ seen)))) =
          stripQueryFrag u ::
            keepFirsts (((us.map stripQueryFrag).filter
              (fun x => !(decide (x ∈ seen)))).filter
                (fun b => !(b = stripQueryFrag u))) := by
        simp [keepFirsts]
      rw [heq, List.filter_filter]
      have hpred : ∀ x ∈ us.map stripQueryFrag,
          ((!(decide (x = stripQueryFrag u))) && !(decide (x ∈ seen))) =
            (!(decide (x ∈ stripQueryFrag u :: seen))) := by
        intro x _
        by_cases h1 : x = stripQueryFrag u <;> by_cases h2 : x ∈ seen <;>
          simp [h1, h2]
      rw [List.filter_congr hpred]
      rw [dedupNormGo_eq us (stripQueryFrag u :: seen)]

lemma dedupNorm_eq_keepFirsts (l : List String) :
    dedupNorm l = keepFirsts (l.map stripQueryFrag) := by
  rw [dedupNorm, dedupNormGo_eq]
  congr 1
  apply List.filter_eq_self.mpr
  intro a _
  simp

lemma mem_dictPut {β : Type} (m : List (String × β)) (k : String) (v : β)
    (p : String × β) (hp : p ∈ dictPut m k v) : p ∈ m ∨ p = (k, v) := by
  unfold dictPut at hp
  split at hp
  · rcases List.mem_map.mp hp with ⟨q, hq, hpq⟩
    by_cases hk : q.1 = k
    · right; rw [← hpq]; simp [hk]
    · left; rw [← hpq]; simp only [hk, if_false]; exact hq
  · rcases List.mem_append.mp hp with h | h
    · left; exact h
    · right; simpa using h

lemma discoverGo_values (env : Env) :
    ∀ (domains : List DomEntry) (acc m : List (String × List String)),
      (∀ p ∈ acc, ∃ found, p.2 = dedupNorm found) →
      discoverGo env domains acc = .ok m →
      ∀ p ∈ m, ∃ found, p.2 = dedupNorm found
  | [], acc, m, hacc, h, p, hp => by
    have : acc = m := by simpa [discoverGo] using h
    subst this
    exact hacc p hp
  | e :: rest, acc, m, hacc, h, p, hp => by
    cases hn : normalize_domain e with
    | none =>
      simp only [discoverGo, hn] at h
      exact discoverGo_values env rest acc m hacc h p hp
    | some nd =>
      cases hf : env.fetchHtml ("https://" ++ nd) with
      | error err =>
        simp only [discoverGo, get_html, hn, hf] at h
        exact Except.noConfusion h
      | ok tri =>
        obtain ⟨body, stc, ct⟩ := tri
        simp only [discoverGo, get_html, hn, hf] at h
        split at h
        · exact discoverGo_values env rest _ m
            (fun q hq => by
              rcases mem_dictPut _ _ _ q hq with hq' | hq'
              · exact hacc q hq'
              · exact ⟨foundFor env ("https://" ++ nd) body, by rw [hq']⟩)
            h p hp
        · exact discoverGo_values env rest acc m hacc h p hp

/-- C3: every feed-URL list in the map returned by `discover_feeds` is the
dedup-normalized candidate list of its domain: each URL has query string and
fragment stripped, the list is duplicate-free, and it keeps exactly the first
occurrence of every normalized URL (`keepFirsts` of the normalized
candidates); in particular a feed produced once with and once without a query
string appears once, without it. -/
theorem C3_feedmap_normalized_dedup :
    (∀ (env : Env) (domains : List DomEntry) (m : List (String × List String)),
        discover_feeds env domains = .ok m →
        ∀ p ∈ m, ∃ found, p.2 = dedupNorm found) ∧
    (∀ l : List String, dedupNorm l = keepFirsts (l.map stripQueryFrag)) ∧
    (∀ l : List String, (dedupNorm l).Nodup) ∧
    (∀ (l : List String) (u : String), u ∈ dedupNorm l → stripQueryFrag u = u) ∧
    dedupNorm ["https://d.com/feed.xml?page=1", "https://d.com/feed.xml"] =
      ["https://d.com/feed.xml"] := by
  refine ⟨?_, dedupNorm_eq_keepFirsts, ?_, ?_, by decide⟩
  · intro env domains m h
    exact discoverGo_values env domains [] m (fun p hp => absurd hp (by simp)) h
  · intro l
    rw [dedupNorm_eq_keepFirsts]
    exact (keepFirsts_aux (l.map stripQueryFrag).length _ (Nat.le_refl _)).1
  · intro l u hu
    rw [dedupNorm_eq_keepFirsts] at hu
    have := ((keepFirsts_aux (l.map stripQueryFrag).length _ (Nat.le_refl _)).2 u).mp hu
    rcases List.mem_map.mp this with ⟨y, -, hy⟩
    rw [← hy]
    exact stripQF_idem y

/-- Witness for C3: the value `discover_feeds` stores for a domain whose
candidates repeat a feed with and without a query string is dedup-normalized.
-/
theorem C3_witness :
    ∃ found, (("example.com", ["https://example.com/feed.xml"]) :
        String × List String).2 = dedupNorm found :=
  C3_feedmap_normalized_dedup.1 envDupFeed [DomEntry.str "example.com"]
    [("example.com", ["https://example.com/feed.xml"])] rfl
    ("example.com", ["https://example.com/feed.xml"]) (by simp)

end Rss

namespace ScrapeP

/-! ### C1 — the five strategies run in order with short-circuit -/

lemma stageFilter_seen_mem (env : Env) :
    ∀ (cs seen : List String) (x : String),
      x ∈ (stageFilter env seen cs).2 ↔ x ∈ seen ∨ x ∈ cs
  | [], seen, x => by simp [stageFilter]
  | c :: cs, seen, x => by
    by_cases hc : c ∈ seen
    · simp only [stageFilter, if_pos hc]
      rw [stageFilter_seen_mem env cs seen x, List.mem_cons]
      constructor
      · rintro (h | h)
        · exact Or.inl h
        · exact Or.inr (Or.inr h)
      · rintro (h | h | h)
        · exact Or.inl h
        · exact Or.inl (by rw [h]; exact hc)
        · exact Or.inr h
    · simp only [stageFilter, if_neg hc]
      split
      · rw [stageFilter_seen_mem env cs (c :: seen) x, List.mem_cons, List.mem_cons]
        tauto
      · show x ∈ (stageFilter env (c :: seen) cs).2 ↔ _
        rw [stageFilter_seen_mem env cs (c :: seen) x, List.mem_cons, List.mem_cons]
        tauto

lemma stageFilter_fst_congr (env : Env) :
    ∀ (cs s1 s2 : List String), (∀ x, x ∈ s1 ↔ x ∈ s2) →
      (stageFilter env s1 cs).1 = (stageFilter env s2 cs).1
  | [], _, _, _ => rfl
  | c :: cs, s1, s2, h => by
    by_cases hc : c ∈ s1
    · have hc2 : c ∈ s2 := (h c).mp hc
      simp only [stageFilter, if_pos hc, if_pos hc2]
      exact stageFilter_fst_congr env cs s1 s2 h
    · have hc2 : c ∉ s2 := fun hh => hc ((h c).mpr hh)
      simp only [stageFilter, if_neg hc, if_neg hc2]
      have hrec := stageFilter_fst_congr env cs (c :: s1) (c :: s2)
        (fun x => by
          simp only [List.mem_cons]
          exact or_congr Iff.rfl (h x))
      by_cases hv : (env.vcrModeNone && !(env.validate c)) = true
      · rw [if_pos hv, if_pos hv]
        exact hrec
      · rw [if_neg hv, if_neg hv]
        show c :: (stageFilter env (c :: s1) cs).1 =
          c :: (stageFilter env (c :: s2) cs).1
        rw [hrec]

lemma discoverLoop_spec (env : Env) :
    ∀ (L : List (String × List String)) (seen : List String) (k : Nat),
      k < L.length →
      (∀ j, j < k →
        (stageFilter env (seen ++ (L.take j).flatMap Prod.snd)
          ((L.getD j ("", [])).2)).1 = []) →
      (stageFilter env (seen ++ (L.take k).flatMap Prod.snd)
        ((L.getD k ("", [])).2)).1 ≠ [] →
      discoverLoop env L seen =
        ((stageFilter env (seen ++ (L.take k).flatMap Prod.snd)
            ((L.getD k ("", [])).2)).1,
          (L.take (k + 1)).map Prod.fst)
  | [], _, k, hk, _, _ => absurd hk (by simp)
  | (name, cands) :: L, seen, 0, _, _, hsucc => by
    simp only [List.take_zero, List.flatMap_nil, List.append_nil,
      List.getD_cons_zero] at hsucc ⊢
    simp only [discoverLoop, if_pos hsucc]
    simp
  | (name, cands) :: L, seen, k + 1, hk, hbefore, hsucc => by
    have h0 : (stageFilter env seen cands).1 = [] := by
      have := hbefore 0 (Nat.succ_pos k)
      simpa using this
    have hmem : ∀ x, x ∈ (stageFilter env seen cands).2 ↔ x ∈ seen ++ cands := by
      intro x
      rw [stageFilter_seen_mem env cands seen x, List.mem_append]
    have htrans : ∀ (j : Nat),
        (stageFilter env
          ((stageFilter env seen cands).2 ++ (L.take j).flatMap Prod.snd)
          ((L.getD j ("", [])).2)).1 =
        (stageFilter env
          (seen ++ (((name, cands) :: L).take (j + 1)).flatMap Prod.snd)
          ((((name, cands) :: L).getD (j + 1) ("", [])).2)).1 := by
      intro j
      rw [List.getD_cons_succ]
      apply stageFilter_fst_congr
      intro x
      simp only [List.take_succ_cons, List.flatMap_cons, List.mem_append,
        hmem x, or_assoc]
    have hb2 : ∀ j, j < k →
        (stageFilter env
          ((stageFilter env seen cands).2 ++ (L.take j).flatMap Prod.snd)
          ((L.getD j ("", [])).2)).1 = [] := by
      intro j hj
      rw [htrans j]
      exact hbefore (j + 1) (Nat.succ_lt_succ hj)
    have hs2 : (stageFilter env
        ((stageFilter env seen cands).2 ++ (L.take k).flatMap Prod.snd)
        ((L.getD k ("", [])).2)).1 ≠ [] := by
      rw [htrans k]
      exact hsucc
    have hrec := discoverLoop_spec env L (stageFilter env seen cands).2 k
      (Nat.lt_of_succ_lt_succ (by simpa using hk)) hb2 hs2
    have hcond : ¬((stageFilter env seen cands).1 ≠ []) := by simp [h0]
    simp only [discoverLoop, if_neg hcond]
    rw [hrec, htrans k]
    simp [List.take_succ_cons]

/-- C1: `discover_feeds` runs the five strategies in the fixed order
link-rel (declared link tags), defaults (default-path probes), anchors
(anchor-text heuristics), feedfinder2 (third-party finder), extensions
(extension probes); it returns the validated survivors of the first strategy
that has any, and its invocation trace ends at that strategy — no later
strategy is invoked. -/
theorem C1_discover_short_circuit (env : Env) (k : Nat) (hk : k < 5)
    (hbefore : ∀ j, j < k → survivorsAt env j = [])
    (hsucc : survivorsAt env k ≠ []) :
    discover_feeds env =
      (survivorsAt env k, ((stagesOf env).take (k + 1)).map Prod.fst) ∧
    (stagesOf env).map Prod.fst =
      ["link-rel", "defaults", "anchors", "feedfinder2", "extensions"] := by
  constructor
  · have hlen : k < (stagesOf env).length := by simpa [stagesOf] using hk
    have h := discoverLoop_spec env (stagesOf env) [] k hlen
      (fun j hj => by
        have := hbefore j hj
        simpa [survivorsAt, seenBefore] using this)
      (by
        intro hcontra
        apply hsucc
        simpa [survivorsAt, seenBefore] using hcontra)
    simpa [discover_feeds, survivorsAt, seenBefore] using h
  · rfl

/-- Witness for C1: the link-rel stage yields nothing and the default-path
stage yields one valid candidate, so discovery returns it and only the first
two strategies run. -/
theorem C1_witness :
    discover_feeds envStage2 =
      (["https://example.com/feed"], ["link-rel", "defaults"]) := by
  have h := (C1_discover_short_circuit envStage2 1 (by decide)
      (fun j hj => by
        have hj0 : j = 0 := by omega
        subst hj0
        decide)
      (by decide)).1
  rw [h]
  rfl

end ScrapeP

end YachtSpec
